import Mathlib

/-!
# Verification of the `gitstats` aggregator (`main.go`)

Shallow embedding of the core of `main.go`: the shortstat record parser
(regexes `(\d+) insertions?\(\+\)` / `(\d+) deletions?\(-\)`, the
author/stat-line loop of `processDir`), the global aggregation into
`GlobalStats`, the month-window date arithmetic of `main` (Go `time.AddDate`
normalization), the orchestration/error-handling control flow, and the
report construction of `printStats`.
-/

namespace GitStats

/-! ## Characters, digits and substring search -/

/-- Go regexp character class `\d` (`[0-9]`). -/
def isDigitCh (c : Char) : Bool := decide ('0' ≤ c ∧ c ≤ '9')

/-- Value of a decimal digit string, as read by `fmt.Sscanf(s, "%d", &n)`
on a capture of `(\d+)` (digits only, hence non-negative). -/
def digitsVal (ds : List Char) : Nat :=
  ds.foldl (fun n c => 10 * n + (c.toNat - '0'.toNat)) 0

/-- Go `strings.Contains`: `pat` occurs as a contiguous substring. -/
def containsSub (pat : List Char) : List Char → Bool
  | [] => pat.isEmpty
  | c :: cs => pat.isPrefixOf (c :: cs) || containsSub pat cs

/-! ## The two regexes

`regexp.MustCompile` with `(\d+) insertions?\(\+\)` (resp.
`(\d+) deletions?\(-\)`) and `FindStringSubmatch`: the leftmost position
where a maximal non-empty digit run is immediately followed by the literal
unit text (the `s` being optional); the capture group is the digit run.
`findNumBefore sfxA sfxB` scans left to right; at each position it takes the
maximal digit run and succeeds when the remainder starts with one of the two
allowed literal suffixes. -/

def findNumBefore (sfxA sfxB : List Char) : List Char → Option Nat
  | [] => none
  | c :: cs =>
    if (c :: cs).takeWhile isDigitCh ≠ [] ∧
        (sfxA.isPrefixOf ((c :: cs).dropWhile isDigitCh)
          ∨ sfxB.isPrefixOf ((c :: cs).dropWhile isDigitCh)) then
      some (digitsVal ((c :: cs).takeWhile isDigitCh))
    else findNumBefore sfxA sfxB cs

/-- `insertionRegex.FindStringSubmatch` (line 34/85), returning the numeric
value of the capture group when a match exists. -/
def insertionFind (cs : List Char) : Option Nat :=
  findNumBefore " insertion(+)".data " insertions(+)".data cs

/-- `deletionRegex.FindStringSubmatch` (line 35/86). -/
def deletionFind (cs : List Char) : Option Nat :=
  findNumBefore " deletion(-)".data " deletions(-)".data cs

/-- Lines 88-94: `var ins int` defaults to `0`; `Sscanf` fills it only when
the regex matched. -/
def extractIns (cs : List Char) : Nat := (insertionFind cs).getD 0

def extractDel (cs : List Char) : Nat := (deletionFind cs).getD 0

/-! ## The record parser (`processDir`, lines 74-106) -/

/-- Lines 83-84: a line is a statistics line when it contains
`"files changed"` or `"file changed"`. -/
def isStatLine (cs : List Char) : Bool :=
  containsSub "files changed".data cs || containsSub "file changed".data cs

/-- An attribution tuple `(author, insertions, deletions)`. -/
abbrev Tup := String × Nat × Nat

/-- Lines 78-106: one pass over the lines with the mutable `author`
register (initially `""`), emitting one tuple per statistics line.  The Go
code accumulates the tuples into the scan-local `stats` map at once; the
emitted tuple sequence is the parser's output in the spec's sense. -/
def parseLines : List String → String → List Tup
  | [], _ => []
  | l :: ls, author =>
    if l = "" then parseLines ls author
    else if isStatLine l.data then
      (author, extractIns l.data, extractDel l.data) :: parseLines ls author
    else parseLines ls l

/-- Go `strings.Split(s, "\n")` (line 74). -/
def splitNL : List Char → List (List Char)
  | [] => [[]]
  | c :: cs =>
    match splitNL cs with
    | [] => [[c]]
    | h :: t => if c = '\n' then [] :: h :: t else (c :: h) :: t

/-- Lines 74-106 end to end: split the raw output on newlines and run the
author/stat state machine with the author register initially unset (`""`). -/
def parseOutput (out : String) : List Tup :=
  parseLines ((splitNL out.data).map String.mk) ""

/-! ## The aggregate (`ChangesStats` / `GlobalStats`, lines 19-28) and the
fold of one scan's tuples (lines 96-118)

A Go map is unordered: its identity is its key-value association, while
iteration order is arbitrary.  `Stats` embeds the nested map as a partial
function; `cells` records the set of populated `(author, month)` entries (the
enumerable key set of the nested map), which only the report step iterates. -/

structure ChangesStats where
  Insertions : Nat
  Deletions : Nat
deriving DecidableEq

@[ext]
structure GlobalStats where
  Stats : String → String → Option ChangesStats
  cells : List (String × String)
  totalInsertions : Nat
  totalDeletions : Nat

/-- Lines 31-32: `var gb GlobalStats; gb.Stats = make(...)`. -/
def initStats : GlobalStats :=
  { Stats := fun _ _ => none, cells := [], totalInsertions := 0, totalDeletions := 0 }

/-- Lines 96-99: the scan-local accumulation of one component (`tv`) of the
tuples attributed to author `a`. -/
def localF (tv : Tup → Nat) (ts : List Tup) (a : String) : Nat :=
  ts.foldl (fun n t => if t.1 = a then n + tv t else n) 0

/-- Lines 96-99: the scan-local `stats[author][0]` accumulated over the
emitted tuples (insertions of `author` in this scan). -/
def localIns (ts : List Tup) (a : String) : Nat := localF (fun t => t.2.1) ts a

/-- Lines 96-99: the scan-local `stats[author][1]`. -/
def localDel (ts : List Tup) (a : String) : Nat := localF (fun t => t.2.2) ts a

/-- The key set of the scan-local `stats` map (the authors that received at
least one tuple in this scan). -/
def scanAuthors (ts : List Tup) : List String := (ts.map (·.1)).dedup

/-- Read of the nested map with Go's zero value for a missing key
(line 114: `authorMonthStats := gb.Stats[author][monthStr]`). -/
def getCell (gb : GlobalStats) (a m : String) : ChangesStats :=
  (gb.Stats a m).getD ⟨0, 0⟩

/-- Lines 96-118 for one scan tagged with `monthStr`: totals grow by the
scan's tuple sums (lines 100-101, executed once per tuple), and for every
author of the scan the `(author, monthStr)` cell grows by that author's
local sums (lines 109-118). -/
def foldScan (gb : GlobalStats) (monthStr : String) (ts : List Tup) : GlobalStats where
  Stats := fun a m =>
    if a ∈ scanAuthors ts ∧ m = monthStr then
      some ⟨(getCell gb a monthStr).Insertions + localIns ts a,
            (getCell gb a monthStr).Deletions + localDel ts a⟩
    else gb.Stats a m
  cells := gb.cells ++
    ((scanAuthors ts).filter (fun a => decide ((a, monthStr) ∉ gb.cells))).map
      (fun a => (a, monthStr))
  totalInsertions := gb.totalInsertions + (ts.map (·.2.1)).sum
  totalDeletions := gb.totalDeletions + (ts.map (·.2.2)).sum

/-- The cells added by a fold: the scan's authors not yet present for this
month, paired with the month key. -/
def newCells (gb : GlobalStats) (mo : String) (ts : List Tup) : List (String × String) :=
  ((scanAuthors ts).filter (fun a => decide ((a, mo) ∉ gb.cells))).map (fun a => (a, mo))

/-- One scan: the month bucket it was tagged with and the tuples the parser
emitted for it. -/
abbrev Scan := String × List Tup

/-- Folding a sequence of scans into the aggregate, in order. -/
def foldScans (gb : GlobalStats) (scans : List Scan) : GlobalStats :=
  scans.foldl (fun g s => foldScan g s.1 s.2) gb

/-! ## Date arithmetic of the month loop (`main`, lines 44-49, 113)

Models Go's `time.Date` normalization as used by `AddDate`: out-of-range
months are folded into the year by floor division, then an out-of-range day
is folded into the adjacent month.  The program only ever normalizes days in
`0..31` (a calendar day from `time.Now().Date()`, or `1 - 1 = 0` from
`firstDayOfMonth.AddDate(0, 1, -1)`), and for those a single borrow/carry is
exactly Go's behaviour, which this embedding implements. -/

def isLeapYear (y : Int) : Bool := y % 4 == 0 && (y % 100 != 0 || y % 400 == 0)

def daysInMonth (y m : Int) : Int :=
  if m = 2 then (if isLeapYear y then 29 else 28)
  else if m = 4 ∨ m = 6 ∨ m = 9 ∨ m = 11 then 30
  else 31

/-- Fold an arbitrary month number into the year (Go's `norm(y, m-1, 12)`). -/
def normYM (y m : Int) : Int × Int := (y + (m - 1).ediv 12, (m - 1).emod 12 + 1)

structure Date where
  year : Int
  month : Int
  day : Int
deriving DecidableEq

/-- Go `time.Date(y, m, d, ...)` normalization, for the day range `0..62`
this program produces. -/
def normDate (y m d : Int) : Date :=
  let ym := normYM y m
  if d < 1 then
    let pm := normYM ym.1 (ym.2 - 1)
    ⟨pm.1, pm.2, d + daysInMonth pm.1 pm.2⟩
  else if d ≤ daysInMonth ym.1 ym.2 then ⟨ym.1, ym.2, d⟩
  else
    let nm := normYM ym.1 (ym.2 + 1)
    ⟨nm.1, nm.2, d - daysInMonth ym.1 ym.2⟩

/-- Go `t.AddDate(years, months, days)`:
`time.Date(y+years, m+months, d+days, ...)`. -/
def addDate (t : Date) (years months days : Int) : Date :=
  normDate (t.year + years) (t.month + months) (t.day + days)

/-- Line 47: `year, month, _ := time.Now().AddDate(0, -i, 0).Date()` —
the year and month the `i`-th loop iteration derives from `now`. -/
def iterYearMonth (now : Date) (i : Nat) : Int × Int :=
  let t := addDate now 0 (-(i : Int)) 0
  (t.year, t.month)

/-- Line 48: `firstDayOfMonth := time.Date(year, month, 1, 0, 0, 0, 0, time.UTC)`. -/
def firstDayOfMonth (now : Date) (i : Nat) : Date :=
  ⟨(iterYearMonth now i).1, (iterYearMonth now i).2, 1⟩

/-- Line 49: `lastDayOfMonth := firstDayOfMonth.AddDate(0, 1, -1)`. -/
def lastDayOfMonth (now : Date) (i : Nat) : Date :=
  addDate (firstDayOfMonth now i) 0 1 (-1)

/-! ## The month key (line 113: `firstDayOfMonth.Format("(2006-01) January 2006")`) -/

def digitCh (n : Nat) : Char := Char.ofNat (48 + n)

/-- Go's year field `2006`: the year zero-padded to four digits
(exact for years `0..9999`, which covers every year this tool can see). -/
def pad4 (n : Nat) : List Char :=
  [digitCh (n / 1000 % 10), digitCh (n / 100 % 10), digitCh (n / 10 % 10), digitCh (n % 10)]

/-- Go's month field `01`: the month zero-padded to two digits. -/
def pad2 (n : Nat) : List Char := [digitCh (n / 10 % 10), digitCh (n % 10)]

/-- Go's month field `January`: the English month name (months are `1..12`
after normalization). -/
def monthName (m : Int) : String :=
  if m = 1 then "January" else if m = 2 then "February" else if m = 3 then "March"
  else if m = 4 then "April" else if m = 5 then "May" else if m = 6 then "June"
  else if m = 7 then "July" else if m = 8 then "August" else if m = 9 then "September"
  else if m = 10 then "October" else if m = 11 then "November"
  else if m = 12 then "December" else ""

/-- The character sequence of `Format("(2006-01) January 2006")`. -/
def monthKeyChars (y m : Int) : List Char :=
  ['('] ++ pad4 y.toNat ++ ['-'] ++ pad2 m.toNat ++ [')', ' ']
    ++ (monthName m).data ++ [' '] ++ pad4 y.toNat

/-- The `monthStr` bucket key (line 113). -/
def monthKey (y m : Int) : String := String.mk (monthKeyChars y m)

/-- The bucket key the `i`-th iteration uses, as a function of `now`. -/
def monthKeyOf (now : Date) (i : Nat) : String :=
  monthKey (iterYearMonth now i).1 (iterYearMonth now i).2

/-! ## Orchestration and fault isolation (`main`, lines 44-147)

The external collaborators are oracles: `scanOut i dir` is the output of the
`git log` invocation for month index `i` in directory `dir` (`none` models
`cmd.Output()` failing, lines 68-72), and `listDir` is the result of
`os.ReadDir(baseDir)` already restricted to subdirectories (`none` models the
listing failing, lines 124-128).  `Except.error` models the early `return`
from `main`, carrying the aggregate state at that point; `Except.ok` is a run
that reaches `printStats`. -/

/-- Lines 123-143: the body of one month iteration. -/
def monthStep (allRepos : Bool) (listDir : Option (List String))
    (scanOut : Nat → String → Option String) (baseDir : String) (now : Date)
    (i : Nat) (gb : GlobalStats) : Except GlobalStats GlobalStats :=
  if allRepos then
    match listDir with
    | none => .error gb
    | some dirs => .ok (dirs.foldl (fun g d =>
        match scanOut i d with
        | none => g
        | some out => foldScan g (monthKeyOf now i) (parseOutput out)) gb)
  else
    match scanOut i baseDir with
    | none => .error gb
    | some out => .ok (foldScan gb (monthKeyOf now i) (parseOutput out))

/-- Lines 44-144: the month loop, iterating `n` remaining months starting at
index `i`; an `error` from a month iteration ends the run. -/
def runMonths (allRepos : Bool) (listDir : Option (List String))
    (scanOut : Nat → String → Option String) (baseDir : String) (now : Date) :
    Nat → Nat → GlobalStats → Except GlobalStats GlobalStats
  | 0, _, gb => .ok gb
  | n + 1, i, gb =>
    match monthStep allRepos listDir scanOut baseDir now i gb with
    | .error g => .error g
    | .ok g => runMonths allRepos listDir scanOut baseDir now n (i + 1) g

/-- The whole run of `main` over `n` months from the empty aggregate. -/
def runGo (allRepos : Bool) (listDir : Option (List String))
    (scanOut : Nat → String → Option String) (baseDir : String) (now : Date)
    (n : Nat) : Except GlobalStats GlobalStats :=
  runMonths allRepos listDir scanOut baseDir now n 0 initStats

/-! ## The reporter (`printStats`, lines 149-239)

The report is modelled structurally: the month blocks in the order printed,
each with its author rows in the order printed and its subtotals, the final
per-author ranking, and the printed grand total.  Go's `sort.Strings` /
`sort.Slice` are modelled by `List.mergeSort` with the comparison the code
passes (`sort.Slice` is unstable and map iteration order is arbitrary, so the
source fixes no tie-break order; any sort with the same comparison realizes
the code's guarantees). -/

structure MonthBlock where
  month : String
  rows : List (String × Nat)
  subIns : Nat
  subDel : Nat

structure Report where
  blocks : List MonthBlock
  ranking : List (String × Nat)
  grandTotal : Nat

/-- The `(author, month)` entries of a given month (the authors the loop at
lines 184-190 collects into `monthStats`). -/
def monthCells (gb : GlobalStats) (m : String) : List (String × String) :=
  gb.cells.filter (fun c => decide (c.2 = m))

/-- Lines 172-204: one month's block — rows sorted by descending insertions
(lines 193-195), subtotals accumulated over the month's entries
(lines 187-188). -/
def renderMonth (gb : GlobalStats) (m : String) : MonthBlock where
  month := m
  rows := ((monthCells gb m).map (fun c => (c.1, (getCell gb c.1 c.2).Insertions))).mergeSort
    (fun x y => decide (y.2 ≤ x.2))
  subIns := ((monthCells gb m).map (fun c => (getCell gb c.1 c.2).Insertions)).sum
  subDel := ((monthCells gb m).map (fun c => (getCell gb c.1 c.2).Deletions)).sum

/-- Lines 149-239: months are the distinct month keys (lines 159-168) sorted
lexically ascending (line 169); the ranking sums each author's insertions
across months (lines 207-213) and sorts descending (lines 226-228); the
grand total printed is `globalStats.totalInsertions` (line 238). -/
def printStats (gb : GlobalStats) : Report where
  blocks := (((gb.cells.map (·.2)).dedup).mergeSort (fun a b => decide (a ≤ b))).map
    (renderMonth gb)
  ranking := (((gb.cells.map (·.1)).dedup).map (fun a =>
      (a, ((gb.cells.filter (fun c => decide (c.1 = a))).map
        (fun c => (getCell gb c.1 c.2).Insertions)).sum))).mergeSort
    (fun x y => decide (y.2 ≤ x.2))
  grandTotal := gb.totalInsertions

/-! ## Specification-side notions: well-formedness and the consistency
invariant of the running totals -/

/-- The enumeration `cells` is duplicate-free and lists exactly the populated
entries of the nested map.  This holds for every aggregate the program builds
and is what Go's `map` provides by construction. -/
def WF (gb : GlobalStats) : Prop :=
  gb.cells.Nodup ∧ ∀ a m, (gb.Stats a m ≠ none ↔ (a, m) ∈ gb.cells)

/-- Sum of the `Insertions` field over every `(author, month)` cell. -/
def sumCellsIns (gb : GlobalStats) : Nat :=
  (gb.cells.map fun c => (getCell gb c.1 c.2).Insertions).sum

/-- Sum of the `Deletions` field over every `(author, month)` cell. -/
def sumCellsDel (gb : GlobalStats) : Nat :=
  (gb.cells.map fun c => (getCell gb c.1 c.2).Deletions).sum

/-- The §8 total-consistency invariant: the running totals equal the sums
over all cells of the nested map. -/
def Consistent (gb : GlobalStats) : Prop :=
  gb.totalInsertions = sumCellsIns gb ∧ gb.totalDeletions = sumCellsDel gb

/-- A `--shortstat` statistics line with explicit insertions and deletions
clauses, the numbers given as digit strings. -/
def statLine (ds1 ds2 : List Char) : String :=
  String.mk (" 1 file changed, ".data
    ++ (ds1 ++ (" insertions(+), ".data ++ (ds2 ++ " deletions(-)".data))))

/-- Two aggregates are identical in the sense of §4.2 / §8: the same
per-author-per-month counts (the nested map as a key-value association —
a Go map has no observable order) and the same running totals. -/
def ObsEq (g1 g2 : GlobalStats) : Prop :=
  g1.Stats = g2.Stats ∧ g1.totalInsertions = g2.totalInsertions
    ∧ g1.totalDeletions = g2.totalDeletions

/-! ## List summation helpers -/

theorem sum_map_addF {α : Type} (l : List α) (f g : α → Nat) :
    (l.map fun x => f x + g x).sum = (l.map f).sum + (l.map g).sum := by
  induction l with
  | nil => simp
  | cons x xs ih => simp [ih]; omega

theorem sum_map_iteF {α : Type} (l : List α) (p : α → Prop) [DecidablePred p] (f : α → Nat) :
    (l.map fun x => if p x then f x else 0).sum
      = ((l.filter fun x => decide (p x)).map f).sum := by
  induction l with
  | nil => simp
  | cons x xs ih => by_cases h : p x <;> simp [List.filter_cons, h, ih]

theorem sum_filter_partitionF {α : Type} (l : List α) (p : α → Bool) (f : α → Nat) :
    ((l.filter p).map f).sum + ((l.filter fun x => !p x).map f).sum = (l.map f).sum := by
  induction l with
  | nil => simp
  | cons x xs ih => cases h : p x <;> simp [List.filter_cons, h] <;> omega

theorem sum_groupBy {α κ : Type} [DecidableEq κ] (key : α → κ) (f : α → Nat) :
    ∀ (keys : List κ) (l : List α), keys.Nodup → (∀ x ∈ l, key x ∈ keys) →
      (keys.map fun k => ((l.filter fun x => decide (key x = k)).map f).sum).sum
        = (l.map f).sum
  | [], l, _, hcov => by
    have hl : l = [] := List.eq_nil_iff_forall_not_mem.2 fun x hx => by simpa using hcov x hx
    simp [hl]
  | k :: ks, l, hnd, hcov => by
    have hk : k ∉ ks := (List.nodup_cons.1 hnd).1
    have hks : ks.Nodup := (List.nodup_cons.1 hnd).2
    have hsplit : ∀ k' ∈ ks,
        l.filter (fun x => decide (key x = k'))
          = (l.filter fun x => !decide (key x = k)).filter (fun x => decide (key x = k')) := by
      intro k' hk'
      rw [List.filter_filter]
      refine List.filter_congr fun x _ => ?_
      have hne : k' ≠ k := by rintro rfl; exact hk hk'
      by_cases h : key x = k'
      · simp [h, hne]
      · simp [h]
    have hmap : (ks.map fun k' => ((l.filter fun x => decide (key x = k')).map f).sum)
        = ks.map fun k' =>
            (((l.filter fun x => !decide (key x = k)).filter
              (fun x => decide (key x = k'))).map f).sum := by
      refine List.map_congr_left fun k' hk' => by rw [hsplit k' hk']
    have hcov' : ∀ x ∈ (l.filter fun x => !decide (key x = k)), key x ∈ ks := by
      intro x hx
      rcases List.mem_filter.1 hx with ⟨hxl, hxne⟩
      rcases List.mem_cons.1 (hcov x hxl) with heq | hmem
      · exact absurd heq (by simpa using hxne)
      · exact hmem
    have ih := sum_groupBy key f ks (l.filter fun x => !decide (key x = k)) hks hcov'
    calc ((k :: ks).map fun k' => ((l.filter fun x => decide (key x = k')).map f).sum).sum
        = ((l.filter fun x => decide (key x = k)).map f).sum
            + (ks.map fun k' => ((l.filter fun x => decide (key x = k')).map f).sum).sum := by
          simp
      _ = ((l.filter fun x => decide (key x = k)).map f).sum
            + ((l.filter fun x => !decide (key x = k)).map f).sum := by rw [hmap, ih]
      _ = (l.map f).sum := sum_filter_partitionF l (fun x => decide (key x = k)) f

/-! ## Properties of the scan-local accumulation -/

theorem localF_shift (tv : Tup → Nat) (ts : List Tup) (a : String) (n : Nat) :
    ts.foldl (fun n t => if t.1 = a then n + tv t else n) n = n + localF tv ts a := by
  induction ts generalizing n with
  | nil => simp [localF]
  | cons t ts ih =>
    simp only [localF, List.foldl_cons] at *
    by_cases h : t.1 = a
    · rw [if_pos h, if_pos h, ih (n + tv t), ih (0 + tv t)]; omega
    · rw [if_neg h, if_neg h]; exact ih n

theorem localF_cons (tv : Tup → Nat) (t : Tup) (ts : List Tup) (a : String) :
    localF tv (t :: ts) a = (if t.1 = a then tv t else 0) + localF tv ts a := by
  simp only [localF, List.foldl_cons]
  by_cases h : t.1 = a <;> simp [h, localF_shift tv ts a]

theorem localF_eq_sum (tv : Tup → Nat) (ts : List Tup) (a : String) :
    localF tv ts a = ((ts.filter fun t => decide (t.1 = a)).map tv).sum := by
  induction ts with
  | nil => simp [localF]
  | cons t ts ih =>
    rw [localF_cons]
    by_cases h : t.1 = a <;> simp [List.filter_cons, h, ih]

theorem sum_localF (tv : Tup → Nat) (ts : List Tup) :
    ((scanAuthors ts).map (localF tv ts)).sum = (ts.map tv).sum := by
  have h1 : (scanAuthors ts).map (localF tv ts)
      = (scanAuthors ts).map fun a => ((ts.filter fun t => decide (t.1 = a)).map tv).sum :=
    List.map_congr_left fun a _ => localF_eq_sum tv ts a
  rw [h1]
  refine sum_groupBy (fun t : Tup => t.1) tv (scanAuthors ts) ts (List.nodup_dedup _) ?_
  intro x hx
  simp only [scanAuthors, List.mem_dedup, List.mem_map]
  exact ⟨x, hx, rfl⟩

/-! ## The fold preserves well-formedness and the consistency invariant -/

theorem getCell_foldScan (gb : GlobalStats) (mo : String) (ts : List Tup) (a m : String) :
    getCell (foldScan gb mo ts) a m =
      if a ∈ scanAuthors ts ∧ m = mo then
        ⟨(getCell gb a m).Insertions + localIns ts a,
         (getCell gb a m).Deletions + localDel ts a⟩
      else getCell gb a m := by
  simp only [getCell, foldScan]
  split
  · next h => rw [h.2]; rfl
  · rfl

theorem cells_foldScan (gb : GlobalStats) (mo : String) (ts : List Tup) :
    (foldScan gb mo ts).cells = gb.cells ++ newCells gb mo ts := rfl

theorem WF_initStats : WF initStats := by
  constructor
  · simp [initStats]
  · intro a m; simp [initStats]

theorem WF_foldScan {gb : GlobalStats} (h : WF gb) (mo : String) (ts : List Tup) :
    WF (foldScan gb mo ts) := by
  obtain ⟨hnd, hsupp⟩ := h
  constructor
  · rw [cells_foldScan]
    refine List.Nodup.append hnd ?_ ?_
    · refine List.Nodup.map_on ?_ (List.Nodup.filter _ (List.nodup_dedup _))
      intro x _ y _ hxy
      exact congrArg Prod.fst hxy
    · intro c hc hc'
      rcases List.mem_map.1 hc' with ⟨a, ha, rfl⟩
      exact (by simpa using (List.mem_filter.1 ha).2 : (a, mo) ∉ gb.cells) hc
  · intro a m
    rw [cells_foldScan, List.mem_append]
    simp only [foldScan]
    split
    · next hcond =>
      obtain ⟨hats, rfl⟩ := hcond
      constructor
      · intro _
        by_cases hin : (a, m) ∈ gb.cells
        · exact Or.inl hin
        · refine Or.inr (List.mem_map.2 ⟨a, List.mem_filter.2 ⟨hats, by simpa using hin⟩, rfl⟩)
      · intro _; simp
    · next hcond =>
      rw [hsupp a m]
      constructor
      · exact Or.inl
      · rintro (hin | hin)
        · exact hin
        · rcases List.mem_map.1 hin with ⟨a', ha', heq⟩
          have ha : a' = a := congrArg Prod.fst heq
          have hm : m = mo := (congrArg Prod.snd heq).symm
          exact absurd ⟨ha ▸ (List.mem_filter.1 ha').1, hm⟩ hcond

/-- Generic form of the cell-sum growth under one fold: for a field selector
`sel` (with `sel ⟨0,0⟩ = 0`) whose update rule matches the tuple component
`tv`, the sum of `sel` over all cells grows by exactly the scan's `tv`-sum. -/
theorem sumCells_foldScan {gb : GlobalStats} (hw : WF gb) (mo : String) (ts : List Tup)
    (sel : ChangesStats → Nat) (tv : Tup → Nat)
    (hupd : ∀ a m, sel (getCell (foldScan gb mo ts) a m)
      = sel (getCell gb a m) + (if a ∈ scanAuthors ts ∧ m = mo then localF tv ts a else 0))
    (hzero : sel ⟨0, 0⟩ = 0) :
    ((foldScan gb mo ts).cells.map
        fun c => sel (getCell (foldScan gb mo ts) c.1 c.2)).sum
      = (gb.cells.map fun c => sel (getCell gb c.1 c.2)).sum + (ts.map tv).sum := by
  obtain ⟨hnd, hsupp⟩ := hw
  rw [cells_foldScan, List.map_append, List.sum_append]
  -- the old cells, pointwise
  have hold : (gb.cells.map fun c => sel (getCell (foldScan gb mo ts) c.1 c.2))
      = gb.cells.map fun c => sel (getCell gb c.1 c.2)
          + (if c.1 ∈ scanAuthors ts ∧ c.2 = mo then localF tv ts c.1 else 0) :=
    List.map_congr_left fun c _ => hupd c.1 c.2
  -- the new cells, pointwise: their old value is the zero cell
  have hnew : ((newCells gb mo ts).map fun c => sel (getCell (foldScan gb mo ts) c.1 c.2))
      = ((scanAuthors ts).filter (fun a => decide ((a, mo) ∉ gb.cells))).map
          (localF tv ts) := by
    rw [newCells, List.map_map]
    refine List.map_congr_left fun a ha => ?_
    rcases List.mem_filter.1 ha with ⟨hats, hnot⟩
    have hnot' : (a, mo) ∉ gb.cells := by simpa using hnot
    have hnone : gb.Stats a mo = none := by
      by_contra hne
      exact hnot' ((hsupp a mo).1 hne)
    have hcell : getCell gb a mo = ⟨0, 0⟩ := by simp [getCell, hnone]
    show sel (getCell (foldScan gb mo ts) a mo) = localF tv ts a
    rw [hupd a mo, hcell, hzero, if_pos ⟨hats, rfl⟩]
    omega
  rw [hold, hnew, sum_map_addF,
    sum_map_iteF gb.cells (fun c => c.1 ∈ scanAuthors ts ∧ c.2 = mo)
      (fun c => localF tv ts c.1)]
  -- the ite-sum over old cells equals the localF-sum over the scan authors
  -- that already had a cell for this month
  have hperm : List.Perm
      ((gb.cells.filter fun c => decide (c.1 ∈ scanAuthors ts ∧ c.2 = mo)).map
        fun c => c.1)
      ((scanAuthors ts).filter fun a => decide ((a, mo) ∈ gb.cells)) := by
    refine List.perm_of_nodup_nodup_toFinset_eq ?_ ?_ ?_
    · refine List.Nodup.map_on ?_ (List.Nodup.filter _ hnd)
      intro x hx y hy hxy
      have hx2 : x.2 = mo := by
        have h2 := (List.mem_filter.1 hx).2
        simp only [decide_eq_true_eq] at h2
        exact h2.2
      have hy2 : y.2 = mo := by
        have h2 := (List.mem_filter.1 hy).2
        simp only [decide_eq_true_eq] at h2
        exact h2.2
      exact Prod.ext hxy (hx2.trans hy2.symm)
    · exact List.Nodup.filter _ (List.nodup_dedup _)
    · ext x
      simp only [List.mem_toFinset, List.mem_map, List.mem_filter, decide_eq_true_eq]
      constructor
      · rintro ⟨c, ⟨hcl, hca, hcm⟩, rfl⟩
        refine ⟨hca, ?_⟩
        have hc' : (c.1, c.2) ∈ gb.cells := by rw [Prod.mk.eta]; exact hcl
        rw [hcm] at hc'
        exact hc'
      · rintro ⟨hax, hmem⟩
        exact ⟨(x, mo), ⟨hmem, hax, rfl⟩, rfl⟩
  have hsum1 :
      ((gb.cells.filter fun c => decide (c.1 ∈ scanAuthors ts ∧ c.2 = mo)).map
          fun c => localF tv ts c.1).sum
        = (((scanAuthors ts).filter fun a => decide ((a, mo) ∈ gb.cells)).map
            (localF tv ts)).sum := by
    have := (hperm.map (localF tv ts)).sum_eq
    simpa [List.map_map, Function.comp] using this
  rw [hsum1]
  -- the two author groups partition the scan authors
  have hpart :
      (((scanAuthors ts).filter fun a => decide ((a, mo) ∈ gb.cells)).map
          (localF tv ts)).sum
        + (((scanAuthors ts).filter fun a => decide ((a, mo) ∉ gb.cells)).map
            (localF tv ts)).sum
        = ((scanAuthors ts).map (localF tv ts)).sum := by
    have hneg : ((scanAuthors ts).filter fun a => decide ((a, mo) ∉ gb.cells))
        = (scanAuthors ts).filter fun a => !decide ((a, mo) ∈ gb.cells) := by
      refine List.filter_congr fun a _ => by simp
    rw [hneg]
    exact sum_filter_partitionF _ _ _
  rw [sum_localF tv ts] at hpart
  omega

theorem Consistent_initStats : Consistent initStats := by
  constructor <;> simp [initStats, sumCellsIns, sumCellsDel]

theorem Consistent_foldScan {gb : GlobalStats} (hw : WF gb) (hc : Consistent gb)
    (mo : String) (ts : List Tup) : Consistent (foldScan gb mo ts) := by
  have hupdI : ∀ a m, (getCell (foldScan gb mo ts) a m).Insertions
      = (getCell gb a m).Insertions
        + (if a ∈ scanAuthors ts ∧ m = mo then localF (fun t => t.2.1) ts a else 0) := by
    intro a m
    rw [getCell_foldScan]
    split
    · rfl
    · omega
  have hupdD : ∀ a m, (getCell (foldScan gb mo ts) a m).Deletions
      = (getCell gb a m).Deletions
        + (if a ∈ scanAuthors ts ∧ m = mo then localF (fun t => t.2.2) ts a else 0) := by
    intro a m
    rw [getCell_foldScan]
    split
    · rfl
    · omega
  constructor
  · show gb.totalInsertions + (ts.map fun t => t.2.1).sum = sumCellsIns (foldScan gb mo ts)
    rw [hc.1]
    exact (sumCells_foldScan hw mo ts (fun s => s.Insertions) (fun t => t.2.1) hupdI rfl).symm
  · show gb.totalDeletions + (ts.map fun t => t.2.2).sum = sumCellsDel (foldScan gb mo ts)
    rw [hc.2]
    exact (sumCells_foldScan hw mo ts (fun s => s.Deletions) (fun t => t.2.2) hupdD rfl).symm

theorem WF_foldScans {gb : GlobalStats} (h : WF gb) (scans : List Scan) :
    WF (foldScans gb scans) := by
  induction scans generalizing gb with
  | nil => exact h
  | cons s ss ih => exact ih (WF_foldScan h s.1 s.2)

theorem Consistent_foldScans {gb : GlobalStats} (hw : WF gb) (hc : Consistent gb)
    (scans : List Scan) : Consistent (foldScans gb scans) := by
  induction scans generalizing gb with
  | nil => exact hc
  | cons s ss ih => exact ih (WF_foldScan hw s.1 s.2) (Consistent_foldScan hw hc s.1 s.2)

/-! ## Order-independence of the fold (spec §4.2) -/

theorem ObsEq.rfl (g : GlobalStats) : ObsEq g g := ⟨Eq.refl _, Eq.refl _, Eq.refl _⟩

theorem ObsEq.trans {g1 g2 g3 : GlobalStats} (h1 : ObsEq g1 g2) (h2 : ObsEq g2 g3) :
    ObsEq g1 g3 :=
  ⟨h1.1.trans h2.1, h1.2.1.trans h2.2.1, h1.2.2.trans h2.2.2⟩

theorem Stats_foldScan (gb : GlobalStats) (mo : String) (ts : List Tup) (a m : String) :
    (foldScan gb mo ts).Stats a m =
      if a ∈ scanAuthors ts ∧ m = mo then
        some ⟨(getCell gb a m).Insertions + localIns ts a,
              (getCell gb a m).Deletions + localDel ts a⟩
      else gb.Stats a m := by
  simp only [foldScan]
  split
  · next h => rw [h.2]
  · rfl

theorem foldScan_swap (gb : GlobalStats) (m1 m2 : String) (t1 t2 : List Tup) :
    ObsEq (foldScan (foldScan gb m1 t1) m2 t2) (foldScan (foldScan gb m2 t2) m1 t1) := by
  refine ⟨?_, ?_, ?_⟩
  · funext a m
    rw [Stats_foldScan, Stats_foldScan, Stats_foldScan, Stats_foldScan,
      getCell_foldScan, getCell_foldScan]
    by_cases h1 : a ∈ scanAuthors t1 ∧ m = m1 <;>
      by_cases h2 : a ∈ scanAuthors t2 ∧ m = m2
    · simp only [if_pos h1, if_pos h2, Option.some.injEq, ChangesStats.mk.injEq]
      constructor <;> omega
    · simp only [if_pos h1, if_neg h2]
    · simp only [if_pos h2, if_neg h1]
    · simp only [if_neg h1, if_neg h2]
  · show gb.totalInsertions + _ + _ = gb.totalInsertions + _ + _
    omega
  · show gb.totalDeletions + _ + _ = gb.totalDeletions + _ + _
    omega

theorem foldScan_congr {g1 g2 : GlobalStats} (h : ObsEq g1 g2) (mo : String) (ts : List Tup) :
    ObsEq (foldScan g1 mo ts) (foldScan g2 mo ts) := by
  obtain ⟨hS, hI, hD⟩ := h
  refine ⟨?_, ?_, ?_⟩
  · funext a m
    rw [Stats_foldScan, Stats_foldScan]
    unfold getCell
    rw [hS]
  · show g1.totalInsertions + _ = g2.totalInsertions + _
    rw [hI]
  · show g1.totalDeletions + _ = g2.totalDeletions + _
    rw [hD]

theorem foldScans_congr {g1 g2 : GlobalStats} (h : ObsEq g1 g2) (l : List Scan) :
    ObsEq (foldScans g1 l) (foldScans g2 l) := by
  induction l generalizing g1 g2 with
  | nil => exact h
  | cons s ss ih => exact ih (foldScan_congr h s.1 s.2)

/-- Permuting the order of the scans leaves the aggregate's nested counts
and totals unchanged. -/
theorem foldScans_perm {l l' : List Scan} (h : l.Perm l') (gb : GlobalStats) :
    ObsEq (foldScans gb l) (foldScans gb l') := by
  induction h generalizing gb with
  | nil => exact ObsEq.rfl _
  | cons x _ ih => exact ih (foldScan gb x.1 x.2)
  | swap x y l => exact foldScans_congr (foldScan_swap gb y.1 x.1 y.2 x.2) l
  | trans _ _ ih1 ih2 => exact ObsEq.trans (ih1 gb) (ih2 gb)

/-- Permuting the tuples within one scan leaves the fold's result unchanged
(the nested counts and totals; folding is commutative across tuples). -/
theorem foldScan_tuples_perm {ts ts' : List Tup} (h : ts.Perm ts')
    (gb : GlobalStats) (mo : String) : ObsEq (foldScan gb mo ts) (foldScan gb mo ts') := by
  have hmem : ∀ a, a ∈ scanAuthors ts ↔ a ∈ scanAuthors ts' := by
    intro a
    simp only [scanAuthors, List.mem_dedup]
    exact (h.map (·.1)).mem_iff
  have hloc : ∀ tv a, localF tv ts a = localF tv ts' a := by
    intro tv a
    rw [localF_eq_sum, localF_eq_sum]
    exact ((h.filter _).map tv).sum_eq
  refine ⟨?_, ?_, ?_⟩
  · funext a m
    rw [Stats_foldScan, Stats_foldScan]
    rw [localIns, localIns, localDel, localDel, hloc (fun t => t.2.1) a,
      hloc (fun t => t.2.2) a]
    exact if_congr (and_congr_left fun _ => hmem a) rfl rfl
  · show gb.totalInsertions + _ = gb.totalInsertions + _
    rw [(h.map (·.2.1)).sum_eq]
  · show gb.totalDeletions + _ = gb.totalDeletions + _
    rw [(h.map (·.2.2)).sum_eq]

/-! ## Behaviour of the regex model -/

theorem takeWhile_digits_append :
    ∀ (ds : List Char) (r : Char) (rs : List Char), (∀ c ∈ ds, isDigitCh c = true) →
      isDigitCh r = false →
      (ds ++ r :: rs).takeWhile isDigitCh = ds ∧ (ds ++ r :: rs).dropWhile isDigitCh = r :: rs
  | [], r, rs, _, hr => by simp [List.takeWhile_cons, List.dropWhile_cons, hr]
  | d :: ds', r, rs, hds, hr => by
    have hd : isDigitCh d = true := hds d (List.mem_cons_self _ _)
    have ih := takeWhile_digits_append ds' r rs (fun c hc => hds c (List.mem_cons_of_mem _ hc)) hr
    simp [List.cons_append, List.takeWhile_cons, List.dropWhile_cons, hd, ih.1, ih.2]

theorem findNumBefore_cons (sA sB : List Char) (c : Char) (cs : List Char) :
    findNumBefore sA sB (c :: cs) =
      if (c :: cs).takeWhile isDigitCh ≠ [] ∧
          (sA.isPrefixOf ((c :: cs).dropWhile isDigitCh)
            ∨ sB.isPrefixOf ((c :: cs).dropWhile isDigitCh)) then
        some (digitsVal ((c :: cs).takeWhile isDigitCh))
      else findNumBefore sA sB cs := by
  rw [findNumBefore]

/-- The regex scan skips a position whose head is not a digit. -/
theorem fnb_skip_nondigit {sA sB : List Char} (c : Char) (cs : List Char)
    (h : isDigitCh c = false) :
    findNumBefore sA sB (c :: cs) = findNumBefore sA sB cs := by
  simp only [findNumBefore, List.takeWhile_cons, h]
  simp

/-- The regex scan skips a run of non-digit characters. -/
theorem fnb_skip_nondigit_list {sA sB : List Char} (p : List Char) (l : List Char)
    (hp : ∀ c ∈ p, isDigitCh c = false) :
    findNumBefore sA sB (p ++ l) = findNumBefore sA sB l := by
  induction p with
  | nil => rw [List.nil_append]
  | cons c p' ih =>
    rw [List.cons_append, fnb_skip_nondigit c _ (hp c (List.mem_cons_self _ _))]
    exact ih fun x hx => hp x (List.mem_cons_of_mem _ hx)

/-- The regex scan skips a single-digit run that is not followed by an
admissible suffix. -/
theorem fnb_skip_digit_char (sA sB : List Char) (c r : Char) (cs : List Char)
    (hc : isDigitCh c = true) (hr : isDigitCh r = false)
    (hfa : sA.isPrefixOf (r :: cs) = false) (hfb : sB.isPrefixOf (r :: cs) = false) :
    findNumBefore sA sB (c :: r :: cs) = findNumBefore sA sB (r :: cs) := by
  simp only [findNumBefore, List.takeWhile_cons, List.dropWhile_cons, hc, hr]
  simp [hfa, hfb]

/-- The regex scan skips a whole digit run that is not followed by an
admissible suffix. -/
theorem fnb_skip_digits (sA sB : List Char) (ds : List Char) (r : Char) (rs : List Char)
    (hds : ∀ c ∈ ds, isDigitCh c = true) (hr : isDigitCh r = false)
    (hfa : sA.isPrefixOf (r :: rs) = false) (hfb : sB.isPrefixOf (r :: rs) = false) :
    findNumBefore sA sB (ds ++ r :: rs) = findNumBefore sA sB (r :: rs) := by
  induction ds with
  | nil => rw [List.nil_append]
  | cons d ds' ih =>
    have htw := takeWhile_digits_append (d :: ds') r rs hds hr
    rw [List.cons_append] at htw
    rw [List.cons_append, findNumBefore_cons, htw.1, htw.2, hfa, hfb]
    rw [if_neg (by simp)]
    exact ih fun c hc => hds c (List.mem_cons_of_mem _ hc)

/-- The regex scan succeeds at a non-empty digit run followed by an
admissible suffix, capturing the run. -/
theorem fnb_here (sA sB : List Char) (ds : List Char) (r : Char) (rs : List Char)
    (hne : ds ≠ []) (hds : ∀ c ∈ ds, isDigitCh c = true) (hr : isDigitCh r = false)
    (hsfx : sA.isPrefixOf (r :: rs) = true ∨ sB.isPrefixOf (r :: rs) = true) :
    findNumBefore sA sB (ds ++ r :: rs) = some (digitsVal ds) := by
  cases ds with
  | nil => exact absurd rfl hne
  | cons d ds' =>
    have htw := takeWhile_digits_append (d :: ds') r rs hds hr
    rw [List.cons_append] at htw
    rw [List.cons_append, findNumBefore_cons, htw.1, htw.2]
    rw [if_pos]
    refine ⟨by simp, ?_⟩
    rcases hsfx with h | h
    · exact Or.inl (by rw [h])
    · exact Or.inr (by rw [h])

/-- Soundness of a successful regex find: the captured number is the value
of a non-empty digit run immediately followed by one of the admissible
literal suffixes. -/
theorem fnb_some {sA sB : List Char} :
    ∀ (l : List Char) (n : Nat), findNumBefore sA sB l = some n →
      ∃ p ds q, l = p ++ (ds ++ q) ∧ ds ≠ [] ∧ (∀ c ∈ ds, isDigitCh c = true) ∧
        (sA.isPrefixOf q = true ∨ sB.isPrefixOf q = true) ∧ digitsVal ds = n
  | [], n, h => by simp [findNumBefore] at h
  | c :: cs, n, h => by
    rw [findNumBefore_cons] at h
    split at h
    · next hcond =>
      refine ⟨[], (c :: cs).takeWhile isDigitCh, (c :: cs).dropWhile isDigitCh,
        ?_, hcond.1, ?_, ?_, ?_⟩
      · rw [List.nil_append, List.takeWhile_append_dropWhile]
      · exact fun x hx => List.mem_takeWhile_imp hx
      · rcases hcond.2 with h2 | h2
        · exact Or.inl h2
        · exact Or.inr h2
      · exact Option.some_inj.1 h
    · next =>
      rcases fnb_some cs n h with ⟨p, ds, q, hl, hne, hds, hq, hv⟩
      exact ⟨c :: p, ds, q, by rw [List.cons_append, ← hl], hne, hds, hq, hv⟩

/-! ## A canonical well-formed record: one author line, one statistics line
with explicit insertion and deletion clauses -/

theorem statLine_data (ds1 ds2 : List Char) :
    (statLine ds1 ds2).data
      = ' ' :: '1' :: ' ' :: ("file changed, ".data
          ++ (ds1 ++ ' ' :: ("insertions(+), ".data
            ++ (ds2 ++ ' ' :: "deletions(-)".data)))) := rfl

theorem statLine_ne_empty (ds1 ds2 : List Char) : statLine ds1 ds2 ≠ "" := by
  intro h
  have h2 : (statLine ds1 ds2).data = "".data := congrArg String.data h
  rw [statLine_data] at h2
  exact (List.cons_ne_nil _ _) h2

theorem isStatLine_statLine (ds1 ds2 : List Char) :
    isStatLine (statLine ds1 ds2).data = true := by
  have h : containsSub "file changed".data (statLine ds1 ds2).data = true := rfl
  unfold isStatLine
  rw [h, Bool.or_true]

theorem insertionFind_statLine (ds1 ds2 : List Char) (h1 : ds1 ≠ [])
    (hd1 : ∀ c ∈ ds1, isDigitCh c = true) :
    insertionFind (statLine ds1 ds2).data = some (digitsVal ds1) := by
  rw [insertionFind, statLine_data]
  rw [fnb_skip_nondigit ' ' _ (by decide)]
  rw [fnb_skip_digit_char " insertion(+)".data " insertions(+)".data '1' ' '
    ("file changed, ".data ++ (ds1 ++ ' ' :: ("insertions(+), ".data
      ++ (ds2 ++ ' ' :: "deletions(-)".data))))
    (by decide) (by decide) rfl rfl]
  rw [fnb_skip_nondigit ' ' _ (by decide)]
  rw [fnb_skip_nondigit_list "file changed, ".data _ (by decide)]
  exact fnb_here " insertion(+)".data " insertions(+)".data ds1 ' ' _ h1 hd1 (by decide) (Or.inr rfl)

theorem deletionFind_statLine (ds1 ds2 : List Char) (h2 : ds2 ≠ [])
    (hd1 : ∀ c ∈ ds1, isDigitCh c = true) (hd2 : ∀ c ∈ ds2, isDigitCh c = true) :
    deletionFind (statLine ds1 ds2).data = some (digitsVal ds2) := by
  rw [deletionFind, statLine_data]
  rw [fnb_skip_nondigit ' ' _ (by decide)]
  rw [fnb_skip_digit_char " deletion(-)".data " deletions(-)".data '1' ' '
    ("file changed, ".data ++ (ds1 ++ ' ' :: ("insertions(+), ".data
      ++ (ds2 ++ ' ' :: "deletions(-)".data))))
    (by decide) (by decide) rfl rfl]
  rw [fnb_skip_nondigit ' ' _ (by decide)]
  rw [fnb_skip_nondigit_list "file changed, ".data _ (by decide)]
  rw [fnb_skip_digits " deletion(-)".data " deletions(-)".data ds1 ' '
    ("insertions(+), ".data ++ (ds2 ++ ' ' :: "deletions(-)".data))
    hd1 (by decide) rfl rfl]
  rw [fnb_skip_nondigit ' ' _ (by decide)]
  rw [fnb_skip_nondigit_list "insertions(+), ".data _ (by decide)]
  exact fnb_here " deletion(-)".data " deletions(-)".data ds2 ' ' _ h2 hd2 (by decide) (Or.inr rfl)

/-- For a well-formed author line followed by a canonical statistics line,
the parser emits exactly the one tuple, the author taken from the author
line and the two counts from the clauses. -/
theorem parseLines_single (author : String) (ds1 ds2 : List Char)
    (ha : author ≠ "") (hstat : isStatLine author.data = false)
    (h1 : ds1 ≠ []) (hd1 : ∀ c ∈ ds1, isDigitCh c = true)
    (h2 : ds2 ≠ []) (hd2 : ∀ c ∈ ds2, isDigitCh c = true) :
    parseLines [author, statLine ds1 ds2] ""
      = [(author, digitsVal ds1, digitsVal ds2)] := by
  have eIns : extractIns (statLine ds1 ds2).data = digitsVal ds1 := by
    rw [extractIns, insertionFind_statLine ds1 ds2 h1 hd1]
    rfl
  have eDel : extractDel (statLine ds1 ds2).data = digitsVal ds2 := by
    rw [extractDel, deletionFind_statLine ds1 ds2 h2 hd1 hd2]
    rfl
  simp only [parseLines, if_neg ha, hstat, Bool.false_eq_true, if_false,
    if_neg (statLine_ne_empty ds1 ds2), isStatLine_statLine, if_true, eIns, eDel]

/-- The parser emits exactly one tuple per statistics line: the output
length is the number of non-empty lines recognized as statistics lines. -/
theorem parseLines_length (lines : List String) (a : String) :
    (parseLines lines a).length
      = lines.countP (fun l => !(l == "") && isStatLine l.data) := by
  induction lines generalizing a with
  | nil => simp [parseLines]
  | cons l ls ih =>
    by_cases he : l = ""
    · subst he
      simp [parseLines, List.countP_cons, ih a]
    · by_cases hs : isStatLine l.data = true
      · simp [parseLines, he, hs, List.countP_cons, ih a]
      · simp only [Bool.not_eq_true] at hs
        simp [parseLines, he, hs, List.countP_cons, ih l]

/-! ## Lexicographic order of month keys -/

theorem digitCh_lt : ∀ a < 10, ∀ b < 10, a < b → digitCh a < digitCh b := by decide

theorem pad4_length (n : Nat) : (pad4 n).length = 4 := rfl

theorem pad2_length (n : Nat) : (pad2 n).length = 2 := rfl

theorem pad4_lex {a b : Nat} (hb : b ≤ 9999) (hab : a < b) :
    List.Lex (· < ·) (pad4 a) (pad4 b) := by
  unfold pad4
  by_cases h3 : a / 1000 = b / 1000
  · rw [h3]
    refine List.Lex.cons ?_
    by_cases h2 : a / 100 = b / 100
    · rw [h2]
      refine List.Lex.cons ?_
      by_cases h1 : a / 10 = b / 10
      · rw [h1]
        exact List.Lex.cons (List.Lex.rel (digitCh_lt (a % 10) (by omega) (b % 10)
          (by omega) (by omega)))
      · exact List.Lex.rel (digitCh_lt (a / 10 % 10) (by omega) (b / 10 % 10)
          (by omega) (by omega))
    · exact List.Lex.rel (digitCh_lt (a / 100 % 10) (by omega) (b / 100 % 10)
        (by omega) (by omega))
  · refine List.Lex.rel (digitCh_lt (a / 1000 % 10) (by omega) (b / 1000 % 10)
      (by omega) ?_)
    have hq : a / 1000 ≤ b / 1000 := Nat.div_le_div_right hab.le
    omega

theorem pad2_lex {a b : Nat} (hb : b ≤ 99) (hab : a < b) :
    List.Lex (· < ·) (pad2 a) (pad2 b) := by
  unfold pad2
  by_cases h1 : a / 10 = b / 10
  · rw [h1]
    exact List.Lex.cons (List.Lex.rel (digitCh_lt (a % 10) (by omega) (b % 10)
      (by omega) (by omega)))
  · exact List.Lex.rel (digitCh_lt (a / 10 % 10) (by omega) (b / 10 % 10)
      (by omega) (by omega))

theorem lex_append_left (p : List Char) {l1 l2 : List Char}
    (h : List.Lex (· < ·) l1 l2) : List.Lex (· < ·) (p ++ l1) (p ++ l2) := by
  induction p with
  | nil => simpa using h
  | cons c p' ih => exact List.Lex.cons ih

theorem lex_append_both : ∀ {l1 l2 : List Char}, List.Lex (· < ·) l1 l2 →
    l1.length = l2.length → ∀ (r1 r2 : List Char), List.Lex (· < ·) (l1 ++ r1) (l2 ++ r2)
  | [], [], h, _, _, _ => by cases h
  | [], _ :: _, _, hlen, _, _ => by simp at hlen
  | _ :: _, [], h, _, _, _ => by cases h
  | a :: l1, b :: l2, h, hlen, r1, r2 => by
    cases h with
    | rel hr => exact List.Lex.rel hr
    | cons h' => exact List.Lex.cons (lex_append_both h' (by simpa using hlen) r1 r2)

/-- Calendar order of `(year, month)` pairs (with realistic bounds) implies
lexicographic order of the derived month keys. -/
theorem monthKey_lt {y1 m1 y2 m2 : Int} (hy1a : 1000 ≤ y1) (hy1b : y1 ≤ 9999)
    (hy2a : 1000 ≤ y2) (hy2b : y2 ≤ 9999) (hm1a : 1 ≤ m1) (hm1b : m1 ≤ 12)
    (hm2a : 1 ≤ m2) (hm2b : m2 ≤ 12)
    (h : y1 < y2 ∨ (y1 = y2 ∧ m1 < m2)) : monthKey y1 m1 < monthKey y2 m2 := by
  rw [String.lt_iff_toList_lt]
  show List.Lex (· < ·) (monthKeyChars y1 m1) (monthKeyChars y2 m2)
  unfold monthKeyChars
  simp only [List.append_assoc, List.singleton_append, List.cons_append]
  rcases h with hlt | ⟨rfl, hm⟩
  · refine List.Lex.cons ?_
    refine lex_append_both (pad4_lex ?_ ?_) (by rw [pad4_length, pad4_length]) _ _
    · omega
    · omega
  · refine List.Lex.cons ?_
    refine lex_append_left (pad4 y1.toNat) ?_
    refine List.Lex.cons ?_
    refine lex_append_both (pad2_lex ?_ ?_) (by rw [pad2_length, pad2_length]) _ _
    · omega
    · omega

/-! ## Control-flow lemmas for the month loop -/

theorem parseOutput_empty : parseOutput "" = [] := rfl

theorem foldScan_nil (gb : GlobalStats) (mo : String) : foldScan gb mo [] = gb := by
  refine GlobalStats.ext ?_ ?_ ?_ ?_
  · funext a m
    rw [Stats_foldScan, if_neg]
    rintro ⟨h, -⟩
    simp [scanAuthors] at h
  · show gb.cells ++ _ = gb.cells
    simp [scanAuthors]
  · show gb.totalInsertions + _ = gb.totalInsertions
    simp
  · show gb.totalDeletions + _ = gb.totalDeletions
    simp

theorem runMonths_succ (ar : Bool) (ld : Option (List String))
    (so : Nat → String → Option String) (bd : String) (now : Date)
    (n i : Nat) (gb : GlobalStats) :
    runMonths ar ld so bd now (n + 1) i gb
      = match monthStep ar ld so bd now i gb with
        | .error g => .error g
        | .ok g => runMonths ar ld so bd now n (i + 1) g := rfl

/-- Single-directory mode: if the scans for the first `k` months succeed and
the scan for month `i + k` fails, the month loop aborts: any longer run is
the same as the run truncated right after the failing month, and that run
ends in the aborted state. -/
theorem runSingle_abort (ld : Option (List String)) (so : Nat → String → Option String)
    (bd : String) (now : Date) :
    ∀ (k i : Nat) (gb : GlobalStats), so (i + k) bd = none →
      (∀ j, j < k → (so (i + j) bd).isSome) →
      ∀ m, runMonths false ld so bd now (k + 1 + m) i gb
          = runMonths false ld so bd now (k + 1) i gb
        ∧ (runMonths false ld so bd now (k + 1) i gb).isOk = false
  | 0, i, gb, hfail, _, m => by
    rw [Nat.add_comm 1 m, runMonths_succ, runMonths_succ]
    have hstep : monthStep false ld so bd now i gb = .error gb := by
      simp only [monthStep, if_neg (Bool.false_ne_true)]
      rw [Nat.add_zero] at hfail
      rw [hfail]
    rw [hstep]
    exact ⟨rfl, rfl⟩
  | k + 1, i, gb, hfail, hsucc, m => by
    have h0 : (so i bd).isSome := by
      have := hsucc 0 (Nat.succ_pos _)
      rwa [Nat.add_zero] at this
    rcases Option.isSome_iff_exists.1 h0 with ⟨out, hout⟩
    have hstep : monthStep false ld so bd now i gb
        = .ok (foldScan gb (monthKeyOf now i) (parseOutput out)) := by
      simp only [monthStep, if_neg (Bool.false_ne_true)]
      rw [hout]
    have ih := runSingle_abort ld so bd now k (i + 1)
      (foldScan gb (monthKeyOf now i) (parseOutput out))
      (by rw [show i + 1 + k = i + (k + 1) by omega]; exact hfail)
      (fun j hj => by
        rw [show i + 1 + j = i + (j + 1) by omega]
        exact hsucc (j + 1) (by omega))
      m
    constructor
    · rw [show k + 1 + 1 + m = (k + 1 + m) + 1 by omega, runMonths_succ, hstep,
        runMonths_succ, hstep]
      exact ih.1
    · rw [runMonths_succ, hstep]
      exact ih.2

/-- Multi-repository mode with a readable base directory never aborts. -/
theorem runMulti_ok (dirs : List String) (so : Nat → String → Option String)
    (bd : String) (now : Date) :
    ∀ (n i : Nat) (gb : GlobalStats),
      (runMonths true (some dirs) so bd now n i gb).isOk = true
  | 0, _, _ => rfl
  | n + 1, i, gb => by
    rw [runMonths_succ]
    have hstep : monthStep true (some dirs) so bd now i gb
        = .ok (dirs.foldl (fun g d =>
            match so i d with
            | none => g
            | some out => foldScan g (monthKeyOf now i) (parseOutput out)) gb) := by
      simp [monthStep]
    rw [hstep]
    exact runMulti_ok dirs so bd now n (i + 1) _

/-- In multi-repository mode a failed directory scan contributes nothing and
processing continues: the run result equals the run in which every failed
scan is replaced by an empty (successful) scan. -/
theorem runMulti_skip_failed (dirs : List String) (so : Nat → String → Option String)
    (bd : String) (now : Date) :
    ∀ (n i : Nat) (gb : GlobalStats),
      runMonths true (some dirs) so bd now n i gb
        = runMonths true (some dirs) (fun j d => some ((so j d).getD "")) bd now n i gb
  | 0, _, _ => rfl
  | n + 1, i, gb => by
    rw [runMonths_succ, runMonths_succ]
    have hfold : ∀ (g : GlobalStats),
        dirs.foldl (fun g d =>
            match so i d with
            | none => g
            | some out => foldScan g (monthKeyOf now i) (parseOutput out)) g
          = dirs.foldl (fun g d =>
              match (fun j d => some ((so j d).getD "")) i d with
              | none => g
              | some out => foldScan g (monthKeyOf now i) (parseOutput out)) g := by
      induction dirs with
      | nil => intro g; rfl
      | cons d ds ihd =>
        intro g
        rw [List.foldl_cons, List.foldl_cons]
        have hone : (match so i d with
              | none => g
              | some out => foldScan g (monthKeyOf now i) (parseOutput out))
            = foldScan g (monthKeyOf now i) (parseOutput ((so i d).getD "")) := by
          cases h : so i d with
          | none => simp [Option.getD_none, parseOutput_empty, foldScan_nil]
          | some out => rfl
        rw [hone]
        exact ihd _
    have hstep : monthStep true (some dirs) so bd now i gb
        = monthStep true (some dirs) (fun j d => some ((so j d).getD "")) bd now i gb :=
      congrArg Except.ok (hfold gb)
    rw [hstep]
    cases monthStep true (some dirs) (fun j d => some ((so j d).getD "")) bd now i gb with
    | error g => rfl
    | ok g => exact runMulti_skip_failed dirs so bd now n (i + 1) g

/-- Multi-repository mode with an unreadable base directory aborts
immediately with the untouched aggregate. -/
theorem runMulti_listfail (so : Nat → String → Option String) (bd : String)
    (now : Date) (n : Nat) (hn : 0 < n) (gb : GlobalStats) :
    runMonths true none so bd now n 0 gb = .error gb := by
  cases n with
  | zero => exact absurd hn (by omega)
  | succ n =>
    rw [runMonths_succ]
    have hstep : monthStep true none so bd now 0 gb = .error gb := by
      simp [monthStep]
    rw [hstep]

/-! ## Reporter lemmas -/

theorem mergeSort_strings_pairwise_lt (l : List String) (hnd : l.Nodup) :
    ((l.mergeSort (fun a b => decide (a ≤ b))).Pairwise (· < ·)) := by
  have htrans : ∀ (a b c : String), (fun a b : String => decide (a ≤ b)) a b →
      (fun a b : String => decide (a ≤ b)) b c → (fun a b : String => decide (a ≤ b)) a c := by
    intro a b c hab hbc
    simp only [decide_eq_true_eq] at *
    exact le_trans hab hbc
  have htotal : ∀ (a b : String),
      ((fun a b : String => decide (a ≤ b)) a b || (fun a b : String => decide (a ≤ b)) b a) := by
    intro a b
    simp only [Bool.or_eq_true, decide_eq_true_eq]
    exact le_total a b
  have hs := @List.sorted_mergeSort String (fun a b => decide (a ≤ b)) htrans htotal l
  have hnd' : (l.mergeSort (fun a b => decide (a ≤ b))).Nodup :=
    (List.mergeSort_perm l _).nodup_iff.2 hnd
  refine (hs.and hnd').imp ?_
  intro a b hab
  exact lt_of_le_of_ne (by simpa using hab.1) hab.2

theorem mergeSort_desc_pairwise {β : Type} (l : List (β × Nat)) :
    ((l.mergeSort (fun x y => decide (y.2 ≤ x.2))).Pairwise (fun x y => y.2 ≤ x.2)) := by
  have htrans : ∀ (a b c : β × Nat), (fun x y : β × Nat => decide (y.2 ≤ x.2)) a b →
      (fun x y : β × Nat => decide (y.2 ≤ x.2)) b c →
      (fun x y : β × Nat => decide (y.2 ≤ x.2)) a c := by
    intro a b c hab hbc
    simp only [decide_eq_true_eq] at *
    omega
  have htotal : ∀ (a b : β × Nat), ((fun x y : β × Nat => decide (y.2 ≤ x.2)) a b
      || (fun x y : β × Nat => decide (y.2 ≤ x.2)) b a) := by
    intro a b
    simp only [Bool.or_eq_true, decide_eq_true_eq]
    omega
  have hs := @List.sorted_mergeSort (β × Nat) (fun x y => decide (y.2 ≤ x.2)) htrans htotal l
  refine hs.imp ?_
  intro a b hab
  simpa using hab

/-- The printed grand total (`globalStats.totalInsertions`, line 238) equals
the sum of the per-month subtotals whenever the running totals are
consistent with the nested map — which holds for every aggregate the
program builds. -/
theorem grandTotal_eq_sum_blocks {gb : GlobalStats} (hc : Consistent gb) :
    (printStats gb).grandTotal = (((printStats gb).blocks).map (fun b => b.subIns)).sum := by
  show gb.totalInsertions = _
  rw [hc.1]
  have hblocks : ((printStats gb).blocks).map (fun b => b.subIns)
      = (((gb.cells.map (·.2)).dedup).mergeSort (fun a b => decide (a ≤ b))).map
          (fun m => ((monthCells gb m).map
            (fun c => (getCell gb c.1 c.2).Insertions)).sum) := by
    show (List.map (renderMonth gb) _).map _ = _
    rw [List.map_map]
    rfl
  rw [hblocks]
  have hgroup := sum_groupBy (fun c : String × String => c.2)
    (fun c => (getCell gb c.1 c.2).Insertions)
    (((gb.cells.map (·.2)).dedup).mergeSort (fun a b => decide (a ≤ b))) gb.cells
    ((List.mergeSort_perm _ _).nodup_iff.2 (List.nodup_dedup _))
    (fun x hx => by
      rw [List.mem_mergeSort, List.mem_dedup]
      exact List.mem_map.2 ⟨x, hx, rfl⟩)
  rw [sumCellsIns, ← hgroup]
  rfl

/-- Sanity: the date model subtracts months correctly away from month ends
(2024-01-31 minus one month is December 2023), and derives February's leap
last day. -/
theorem date_model_sanity :
    iterYearMonth ⟨2024, 1, 31⟩ 1 = (2023, 12)
    ∧ iterYearMonth ⟨2024, 3, 15⟩ 1 = (2024, 2)
    ∧ lastDayOfMonth ⟨2024, 3, 15⟩ 1 = ⟨2024, 2, 29⟩
    ∧ monthKey 2024 3 = "(2024-03) March 2024" := by
  refine ⟨by decide, by decide, by decide, by decide⟩

/-! ## The claims -/

/-- C1: the Record Parser emits exactly one attribution tuple per statistics
line, attributed to the most recently seen author line: (i) on the spec's
three-record input it yields `[(alice@x,3,0), (alice@x,1,1), (bob@x,5,0)]`;
(ii) a single author line followed by a single statistics line with explicit
`N insertions(+)` and `M deletions(-)` clauses yields exactly the one tuple
`(author, N, M)`; (iii) in general the number of emitted tuples equals the
number of non-empty statistics lines. -/
theorem claim_C1 :
    (parseOutput "alice@x\n 1 file changed, 3 insertions(+)\n 2 file changed, 1 insertion(+), 1 deletion(-)\nbob@x\n 1 file changed, 5 insertions(+)\n"
      = [("alice@x", 3, 0), ("alice@x", 1, 1), ("bob@x", 5, 0)])
    ∧ (∀ (author : String) (ds1 ds2 : List Char), author ≠ "" →
        isStatLine author.data = false → ds1 ≠ [] → (∀ c ∈ ds1, isDigitCh c = true) →
        ds2 ≠ [] → (∀ c ∈ ds2, isDigitCh c = true) →
        parseLines [author, statLine ds1 ds2] ""
          = [(author, digitsVal ds1, digitsVal ds2)])
    ∧ (∀ (lines : List String) (a : String), (parseLines lines a).length
        = lines.countP (fun l => !(l == "") && isStatLine l.data)) :=
  ⟨by decide, parseLines_single, parseLines_length⟩

/-- Witness for C1 at a concrete record: author `dev@example.com`,
`42 insertions(+)`, `7 deletions(-)`. -/
theorem claim_C1_witness :
    parseLines ["dev@example.com", statLine ['4', '2'] ['7']] ""
      = [("dev@example.com", 42, 7)] := by
  have h := claim_C1.2.1 "dev@example.com" ['4', '2'] ['7'] (by decide) (by decide)
    (by decide) (by decide) (by decide) (by decide)
  rw [h]
  rfl

/-- C2: the running totals stay consistent with the sum over all
`(author, month)` cells after every single fold (for any well-formed,
consistent aggregate), and consequently after any sequence of folds from the
program's initial aggregate. -/
theorem claim_C2 :
    (∀ (gb : GlobalStats) (mo : String) (ts : List Tup), WF gb → Consistent gb →
        WF (foldScan gb mo ts) ∧ Consistent (foldScan gb mo ts))
    ∧ (∀ scans : List Scan, Consistent (foldScans initStats scans)) :=
  ⟨fun _ mo ts hw hc => ⟨WF_foldScan hw mo ts, Consistent_foldScan hw hc mo ts⟩,
   fun scans => Consistent_foldScans WF_initStats Consistent_initStats scans⟩

/-- Witness for C2 at a concrete fold. -/
theorem claim_C2_witness :
    WF (foldScan initStats "(2024-03) March 2024" [("a@x", 3, 1)])
      ∧ Consistent (foldScan initStats "(2024-03) March 2024" [("a@x", 3, 1)]) :=
  claim_C2.1 initStats "(2024-03) March 2024" [("a@x", 3, 1)]
    WF_initStats Consistent_initStats

/-- C3: folding is commutative across scans and across tuples — any
permutation of the scan order (resp. of a scan's tuples) produces an
identical final aggregate: the same per-author-per-month counts and the same
running totals. -/
theorem claim_C3 :
    (∀ (gb : GlobalStats) (l l' : List Scan), l.Perm l' →
        ObsEq (foldScans gb l) (foldScans gb l'))
    ∧ (∀ (gb : GlobalStats) (mo : String) (ts ts' : List Tup), ts.Perm ts' →
        ObsEq (foldScan gb mo ts) (foldScan gb mo ts')) :=
  ⟨fun gb _ _ h => foldScans_perm h gb, fun gb mo _ _ h => foldScan_tuples_perm h gb mo⟩

/-- Witness for C3: two scans folded in both orders from the initial
aggregate. -/
theorem claim_C3_witness :
    ObsEq
      (foldScans initStats
        [("(2024-02) February 2024", [("a@x", 1, 0)]),
         ("(2024-03) March 2024", [("b@x", 2, 3)])])
      (foldScans initStats
        [("(2024-03) March 2024", [("b@x", 2, 3)]),
         ("(2024-02) February 2024", [("a@x", 1, 0)])]) :=
  claim_C3.1 initStats _ _ (by decide)

/-- C4 (code behaviour at the failing input): a statistics line with no
preceding author line is parsed and attributed to the empty author key, and
folding it puts an empty-string `AuthorKey` into the aggregate — the code
does not treat this as a fatal parse condition. -/
theorem claim_C4_code_behaviour :
    parseOutput " 1 file changed, 2 insertions(+)\n" = [("", 2, 0)]
    ∧ (foldScan initStats "(2024-03) March 2024"
        (parseOutput " 1 file changed, 2 insertions(+)\n")).Stats "" "(2024-03) March 2024"
      = some ⟨2, 0⟩ := by
  exact ⟨by decide, by decide⟩

/-- C5: a statistics line with an absent insertions (resp. deletions) clause
yields an extracted count of 0; and a successful extraction always takes its
number from a digit run immediately followed by the literal unit text
`" insertion(s)(+)"` (resp. `" deletion(s)(-)"`), never from an unrelated
integer elsewhere on the line. -/
theorem claim_C5 :
    ∀ l : List Char,
      ((insertionFind l = none → extractIns l = 0)
        ∧ (deletionFind l = none → extractDel l = 0))
      ∧ (∀ n, insertionFind l = some n → extractIns l = n ∧
          ∃ p ds q, l = p ++ (ds ++ q) ∧ ds ≠ [] ∧ (∀ c ∈ ds, isDigitCh c = true)
            ∧ (" insertion(+)".data.isPrefixOf q = true
                ∨ " insertions(+)".data.isPrefixOf q = true)
            ∧ digitsVal ds = n)
      ∧ (∀ n, deletionFind l = some n → extractDel l = n ∧
          ∃ p ds q, l = p ++ (ds ++ q) ∧ ds ≠ [] ∧ (∀ c ∈ ds, isDigitCh c = true)
            ∧ (" deletion(-)".data.isPrefixOf q = true
                ∨ " deletions(-)".data.isPrefixOf q = true)
            ∧ digitsVal ds = n) := by
  intro l
  refine ⟨⟨fun h => by simp [extractIns, h], fun h => by simp [extractDel, h]⟩, ?_, ?_⟩
  · intro n h
    exact ⟨by simp [extractIns, h], fnb_some l n h⟩
  · intro n h
    exact ⟨by simp [extractDel, h], fnb_some l n h⟩

/-- Witness for C5 on `" 3 files changed, 10 insertions(+)"`: the absent
deletions clause defaults to 0, and the extracted 10 is the digit run
adjacent to the insertions unit text (not the unrelated 3). -/
theorem claim_C5_witness :
    extractDel " 3 files changed, 10 insertions(+)".data = 0
    ∧ extractIns " 3 files changed, 10 insertions(+)".data = 10
    ∧ ∃ p ds q, " 3 files changed, 10 insertions(+)".data = p ++ (ds ++ q)
        ∧ ds ≠ [] ∧ (∀ c ∈ ds, isDigitCh c = true)
        ∧ (" insertion(+)".data.isPrefixOf q = true
            ∨ " insertions(+)".data.isPrefixOf q = true)
        ∧ digitsVal ds = 10 := by
  have h := claim_C5 " 3 files changed, 10 insertions(+)".data
  exact ⟨h.1.2 (by decide), (h.2.1 10 (by decide)).1, (h.2.1 10 (by decide)).2⟩

/-- C6 (code behaviour at the failing input): with `now = 2024-03-31`,
iteration `i = 1` does not derive February 2024 (`now` minus one whole
calendar month); Go's `AddDate` normalizes `2024-02-31` to `2024-03-02`, so
the iteration derives March 2024 again and uses the same month key as
iteration 0. -/
theorem claim_C6_code_behaviour :
    iterYearMonth ⟨2024, 3, 31⟩ 1 = (2024, 3)
    ∧ iterYearMonth ⟨2024, 3, 31⟩ 1 ≠ (2024, 2)
    ∧ monthKeyOf ⟨2024, 3, 31⟩ 1 = monthKeyOf ⟨2024, 3, 31⟩ 0
    ∧ firstDayOfMonth ⟨2024, 3, 31⟩ 1 = ⟨2024, 3, 1⟩
    ∧ lastDayOfMonth ⟨2024, 3, 31⟩ 1 = ⟨2024, 3, 31⟩ := by
  refine ⟨by decide, by decide, by decide, by decide, by decide⟩

/-- C7: the month key is a function of the derived year-month alone — two
scans whose date windows coincide produce the same key, with no dependence
on the scanned directory or on which day of the month triggered the scan —
and calendar order of (year, month) (within the tool's realistic ranges)
implies lexicographic order of the keys. -/
theorem claim_C7 :
    (∀ (now1 : Date) (i1 : Nat) (now2 : Date) (i2 : Nat),
        firstDayOfMonth now1 i1 = firstDayOfMonth now2 i2 →
        monthKeyOf now1 i1 = monthKeyOf now2 i2)
    ∧ (∀ y1 m1 y2 m2 : Int, 1000 ≤ y1 → y1 ≤ 9999 → 1000 ≤ y2 → y2 ≤ 9999 →
        1 ≤ m1 → m1 ≤ 12 → 1 ≤ m2 → m2 ≤ 12 →
        (y1 < y2 ∨ (y1 = y2 ∧ m1 < m2)) → monthKey y1 m1 < monthKey y2 m2) := by
  constructor
  · intro now1 i1 now2 i2 h
    rw [firstDayOfMonth, firstDayOfMonth, Date.mk.injEq] at h
    rw [monthKeyOf, monthKeyOf, h.1, h.2.1]
  · intro y1 m1 y2 m2 h1 h2 h3 h4 h5 h6 h7 h8 h
    exact monthKey_lt h1 h2 h3 h4 h5 h6 h7 h8 h

/-- Witness for C7: scans triggered on 2024-03-15 and 2024-03-31 (same
window) share a key, and March 2024 sorts before April 2024. -/
theorem claim_C7_witness :
    monthKeyOf ⟨2024, 3, 15⟩ 0 = monthKeyOf ⟨2024, 3, 31⟩ 0
    ∧ monthKey 2024 3 < monthKey 2024 4 := by
  constructor
  · exact claim_C7.1 ⟨2024, 3, 15⟩ 0 ⟨2024, 3, 31⟩ 0 (by decide)
  · exact claim_C7.2 2024 3 2024 4 (by decide) (by decide) (by decide) (by decide)
      (by decide) (by decide) (by decide) (by decide) (Or.inr ⟨rfl, by decide⟩)

/-- C8: fault isolation is asymmetric — in single-directory mode a failed
scan aborts the whole run (the run equals its truncation at the failing
month and is not OK); in multi-repository mode a failed directory scan is
skipped (the run equals the run with failed scans replaced by empty output,
and completes); a failed base-directory listing in multi-repository mode is
immediately fatal with nothing aggregated. -/
theorem claim_C8 :
    (∀ (ld : Option (List String)) (so : Nat → String → Option String) (bd : String)
        (now : Date) (k m : Nat),
        so k bd = none → (∀ j, j < k → (so j bd).isSome) →
        runGo false ld so bd now (k + 1 + m) = runGo false ld so bd now (k + 1)
          ∧ (runGo false ld so bd now (k + 1)).isOk = false)
    ∧ (∀ (dirs : List String) (so : Nat → String → Option String) (bd : String)
        (now : Date) (n : Nat),
        runGo true (some dirs) so bd now n
            = runGo true (some dirs) (fun j d => some ((so j d).getD "")) bd now n
          ∧ (runGo true (some dirs) so bd now n).isOk = true)
    ∧ (∀ (so : Nat → String → Option String) (bd : String) (now : Date) (n : Nat),
        0 < n → runGo true none so bd now n = .error initStats) := by
  refine ⟨?_, ?_, ?_⟩
  · intro ld so bd now k m hfail hsucc
    exact runSingle_abort ld so bd now k 0 initStats (by simpa using hfail)
      (fun j hj => by simpa using hsucc j hj) m
  · intro dirs so bd now n
    exact ⟨runMulti_skip_failed dirs so bd now n 0 initStats,
      runMulti_ok dirs so bd now n 0 initStats⟩
  · intro so bd now n hn
    exact runMulti_listfail so bd now n hn initStats

/-- Witness for C8: a single-directory run whose month-1 scan fails aborts
(months after 1 are never reached), and a multi-repository run with an
unreadable base aborts immediately. -/
theorem claim_C8_witness :
    (runGo false none (fun i _ => if i = 1 then none else some "") "." ⟨2024, 3, 15⟩ 3
        = runGo false none (fun i _ => if i = 1 then none else some "") "." ⟨2024, 3, 15⟩ 2
      ∧ (runGo false none (fun i _ => if i = 1 then none else some "") "." ⟨2024, 3, 15⟩ 2).isOk
          = false)
    ∧ runGo true none (fun _ _ => some "") "." ⟨2024, 3, 15⟩ 1 = .error initStats := by
  constructor
  · exact claim_C8.1 none (fun i _ => if i = 1 then none else some "") "." ⟨2024, 3, 15⟩ 1 1
      (by decide) (by decide)
  · exact claim_C8.2.2 (fun _ _ => some "") "." ⟨2024, 3, 15⟩ 1 (by decide)

/-- C9: the report renders one block per populated month with the months in
strictly ascending lexical order, the author rows of every block sorted by
descending insertions, the grand per-author ranking sorted by descending
insertions, and a final grand total equal to the sum of the month
subtotals. -/
theorem claim_C9 :
    ∀ scans : List Scan,
      (((printStats (foldScans initStats scans)).blocks.map (fun b => b.month)).Pairwise
          (· < ·))
      ∧ (∀ m : String,
          m ∈ (printStats (foldScans initStats scans)).blocks.map (fun b => b.month)
            ↔ m ∈ (foldScans initStats scans).cells.map (·.2))
      ∧ (∀ b ∈ (printStats (foldScans initStats scans)).blocks,
          b.rows.Pairwise (fun x y => y.2 ≤ x.2))
      ∧ ((printStats (foldScans initStats scans)).ranking.Pairwise (fun x y => y.2 ≤ x.2))
      ∧ (printStats (foldScans initStats scans)).grandTotal
          = ((printStats (foldScans initStats scans)).blocks.map (fun b => b.subIns)).sum := by
  intro scans
  have hmonths : (printStats (foldScans initStats scans)).blocks.map (fun b => b.month)
      = (((foldScans initStats scans).cells.map (·.2)).dedup).mergeSort
          (fun a b => decide (a ≤ b)) := by
    show (List.map (renderMonth _) _).map _ = _
    rw [List.map_map]
    exact List.map_id _
  refine ⟨?_, ?_, ?_, ?_, ?_⟩
  · rw [hmonths]
    exact mergeSort_strings_pairwise_lt _ (List.nodup_dedup _)
  · intro m
    rw [hmonths, List.mem_mergeSort, List.mem_dedup]
  · intro b hb
    rcases List.mem_map.1 hb with ⟨m, _, rfl⟩
    exact mergeSort_desc_pairwise _
  · exact mergeSort_desc_pairwise _
  · exact grandTotal_eq_sum_blocks
      (Consistent_foldScans WF_initStats Consistent_initStats scans)

/-- C10: no fold ever decreases an existing `(author, month)` cell or a
running total — both are monotonically non-decreasing across folds (their
values are non-negative by construction: the regex captures digit runs, so
every extracted count is a natural number). -/
theorem claim_C10 :
    (∀ (gb : GlobalStats) (mo : String) (ts : List Tup) (a m : String),
        (getCell gb a m).Insertions ≤ (getCell (foldScan gb mo ts) a m).Insertions
        ∧ (getCell gb a m).Deletions ≤ (getCell (foldScan gb mo ts) a m).Deletions
        ∧ gb.totalInsertions ≤ (foldScan gb mo ts).totalInsertions
        ∧ gb.totalDeletions ≤ (foldScan gb mo ts).totalDeletions)
    ∧ (∀ (gb : GlobalStats) (scans : List Scan) (a m : String),
        (getCell gb a m).Insertions ≤ (getCell (foldScans gb scans) a m).Insertions
        ∧ (getCell gb a m).Deletions ≤ (getCell (foldScans gb scans) a m).Deletions
        ∧ gb.totalInsertions ≤ (foldScans gb scans).totalInsertions
        ∧ gb.totalDeletions ≤ (foldScans gb scans).totalDeletions) := by
  have hone : ∀ (gb : GlobalStats) (mo : String) (ts : List Tup) (a m : String),
      (getCell gb a m).Insertions ≤ (getCell (foldScan gb mo ts) a m).Insertions
      ∧ (getCell gb a m).Deletions ≤ (getCell (foldScan gb mo ts) a m).Deletions
      ∧ gb.totalInsertions ≤ (foldScan gb mo ts).totalInsertions
      ∧ gb.totalDeletions ≤ (foldScan gb mo ts).totalDeletions := by
    intro gb mo ts a m
    refine ⟨?_, ?_, Nat.le_add_right _ _, Nat.le_add_right _ _⟩
    · rw [getCell_foldScan]
      split
      · exact Nat.le_add_right _ _
      · exact Nat.le_refl _
    · rw [getCell_foldScan]
      split
      · exact Nat.le_add_right _ _
      · exact Nat.le_refl _
  refine ⟨hone, ?_⟩
  intro gb scans
  induction scans generalizing gb with
  | nil => exact fun a m => ⟨Nat.le_refl _, Nat.le_refl _, Nat.le_refl _, Nat.le_refl _⟩
  | cons s ss ih =>
    intro a m
    have h1 := hone gb s.1 s.2 a m
    have h2 := ih (foldScan gb s.1 s.2) a m
    exact ⟨le_trans h1.1 h2.1, le_trans h1.2.1 h2.2.1,
      le_trans h1.2.2.1 h2.2.2.1, le_trans h1.2.2.2 h2.2.2.2⟩

end GitStats
